import Mathlib

/-!
# Verification of the Mida fixed-precision decimal engine and event emitter

This file gives a shallow embedding of `src/core/decimals/MidaDecimal.ts`
(the fixed-scale decimal arithmetic engine backed by a JavaScript `bigint`)
and of the `MidaEmitter` publish/subscribe hub, together with theorems
settling the specification claims about them.

Strings are modelled as `List Char` (the character data of a JavaScript
string).  The internal `bigint` field `#value` is modelled as `Int`.
A constructor call that throws is modelled as `Option.none`.
-/

/-! ## Constants of `MidaDecimal`

`static readonly #decimals = 32`, `static readonly #rounded = true`,
`static readonly #shift = BigInt("1" + "0".repeat(32))`. -/

def SCALE : Nat := 32

def roundedPolicy : Bool := true

def shift : Int := 10 ^ SCALE

/-! ## Character and digit helpers -/

/-- Numeric value of a decimal digit character. -/
def digitVal (c : Char) : Nat := c.toNat - 48

/-- Decimal digit representation of a natural number, most significant first.
The first argument is recursion fuel; it is consumed once per digit. -/
def natToCharsAux : Nat → Nat → List Char
  | 0, _ => []
  | fuel + 1, n =>
    if n = 0 then [] else natToCharsAux fuel (n / 10) ++ [Char.ofNat (n % 10 + 48)]

/-- Decimal string of a natural number (`"0"` for zero), as produced by
JavaScript `BigInt.prototype.toString` on a non-negative value. -/
def natToChars (n : Nat) : List Char := if n = 0 then ['0'] else natToCharsAux n n

/-- Models JavaScript `BigInt.prototype.toString` (base 10). -/
def intToChars (v : Int) : List Char :=
  if v < 0 then '-' :: natToChars v.natAbs else natToChars v.natAbs

/-- Value of a string of decimal digits (`0` for the empty string), reading
left to right. -/
def natFromDigits (s : List Char) : Nat := s.foldl (fun a c => 10 * a + digitVal c) 0

/-- Models the JavaScript `BigInt(string)` conversion on the string fragment
reachable in `MidaDecimal` (an optional leading `-` followed by decimal
digits; the empty string converts to `0`).  `none` models the `SyntaxError`
thrown on any other string; hexadecimal/octal/binary prefixes and whitespace
trimming are outside the model. -/
def bigIntOfChars : List Char → Option Int
  | [] => some 0
  | c :: rest =>
    if c = '-' then
      if rest ≠ [] ∧ rest.all Char.isDigit then some (-(natFromDigits rest : Int)) else none
    else
      if (c :: rest).all Char.isDigit then some ((natFromDigits (c :: rest) : Int)) else none

/-- Models the JavaScript check `Number.isFinite(Number(s))` on the string
fragment reachable in `MidaDecimal`: decimal literals (optional sign, integer
digits, optionally a dot and fraction digits), with the empty string counting
as finite (`Number("") === 0`).  Exponent notation, hexadecimal forms,
`Infinity` and whitespace trimming are outside the model. -/
def jsNumberFinite (s : List Char) : Bool :=
  match s with
  | [] => true
  | c0 :: t0 =>
    let body := if c0 = '-' ∨ c0 = '+' then t0 else c0 :: t0
    let intPart := body.takeWhile Char.isDigit
    let rest := body.dropWhile Char.isDigit
    match rest with
    | [] => decide (intPart ≠ [])
    | r :: rt =>
      if r = '.' then (decide (intPart ≠ []) || decide (rt ≠ [])) && rt.all Char.isDigit
      else false

/-! ## String manipulation helpers used by the constructor and `#toString` -/

/-- Models `String(value).split(".")` followed by taking the first two parts
(`decimals` defaults to the empty string): the characters before the first
dot, and the characters between the first and the second dot. -/
def splitDot (s : List Char) : List Char × List Char :=
  (s.takeWhile (· ≠ '.'), ((s.dropWhile (· ≠ '.')).drop 1).takeWhile (· ≠ '.'))

/-- Models JavaScript `String.prototype.replace` with a plain-string pattern:
replaces only the first occurrence of `c` by `r`. -/
def replaceFirst : List Char → Char → List Char → List Char
  | [], _, _ => []
  | x :: xs, c, r => if x = c then r ++ xs else x :: replaceFirst xs c r

/-- Models `decimals.padEnd(32, "0").slice(0, 32)`. -/
def padTakeScale (s : List Char) : List Char :=
  (s ++ List.replicate (SCALE - s.length) '0').take SCALE

/-- Models `descriptor.padStart(n, "0")`. -/
def padStartZeros (s : List Char) (n : Nat) : List Char :=
  List.replicate (n - s.length) '0' ++ s

/-- Models `decimals.replace(/\x7b0\x7d/, "")` for the pattern "optional dot
followed by a maximal run of zeros at the end of the string": if the string
ends in at least one `'0'`, that run is removed together with one dot
immediately before it, if present. -/
def stripTrailingZeros (s : List Char) : List Char :=
  let r := s.reverse.dropWhile (· = '0')
  let r2 := if r.length < s.length ∧ r.head? = some '.' then r.tail else r
  r2.reverse

/-! ## The `MidaDecimal` constructor and `#toString` -/

/-- The sign extraction and replacement steps of the `MidaDecimal`
constructor: split on the first dot, record whether either part contains a
`'-'`, and replace its first occurrence by `"0"` in the fractional part and
by `""` in the integer part.  Returns (isNegative, integers, decimals). -/
def constructParts (s : List Char) : Bool × List Char × List Char :=
  let p := splitDot s
  let negD := p.2.contains '-'
  let decimals := if negD then replaceFirst p.2 '-' ['0'] else p.2
  let negI := p.1.contains '-'
  let integers := if negI then replaceFirst p.1 '-' [] else p.1
  (negD || negI, integers, decimals)

/-- Models `Number(decimals[32]) >= 5`: the character at index `SCALE` of the
(post-replacement) fractional part, when present and a digit with value at
least 5, triggers the rounding increment (`BigInt(true) = 1`).  An absent
character is `undefined`, whose `Number` is `NaN`, and `NaN >= 5` is false. -/
def roundIncAt (decimals : List Char) : Int :=
  match decimals[SCALE]? with
  | some c => if roundedPolicy ∧ c.isDigit ∧ 5 ≤ digitVal c then 1 else 0
  | none => 0

/-- The `MidaDecimal` constructor on the textual representation of its
argument: returns the internal scaled `bigint` `#value`, or `none` when the
constructor throws (either the explicit non-finite fatal error or a
`SyntaxError` from `BigInt`). -/
def construct (s : List Char) : Option Int :=
  let p := constructParts s
  if jsNumberFinite p.2.1 ∧ jsNumberFinite p.2.2 then
    match bigIntOfChars ((if p.1 then ['-'] else []) ++ p.2.1 ++ padTakeScale p.2.2) with
    | some v => some (v + roundIncAt p.2.2)
    | none => none
  else none

/-- `MidaDecimal.#toString`: renders an internal scaled `bigint` as the
canonical decimal string. -/
def midaToString (v : Int) : List Char :=
  let descriptor := padStartZeros (intToChars v) (SCALE + 1)
  let integers0 := descriptor.take (descriptor.length - SCALE)
  let decimals0 := stripTrailingZeros (descriptor.drop (descriptor.length - SCALE))
  let negD := decimals0.contains '-'
  let decimals := if negD then replaceFirst decimals0 '-' ['0'] else decimals0
  let negI := integers0.contains '-'
  let integers := if negI then replaceFirst integers0 '-' [] else integers0
  (if negD || negI then ['-'] else []) ++ integers ++
    (if decimals = [] then [] else '.' :: decimals)

/-! ## Arithmetic operations

Each operation acts on the internal scaled values; every result is
re-materialized through `#toString` and the constructor, exactly as in the
source (`decimal(MidaDecimal.#toString(...))`).  JavaScript `bigint`
division `/` truncates toward zero (`Int.tdiv`) and `%` is the matching
remainder (`Int.tmod`); dividing by `0n` throws a `RangeError`, modelled as
`none`. -/

def decAdd (a b : Int) : Option Int := construct (midaToString (a + b))

def decSub (a b : Int) : Option Int := construct (midaToString (a - b))

/-- The integer computation inside `MidaDecimal.#divideRound`:
`dividend / divisor + (rounded ? dividend * 2n / divisor % 2n : 0n)`. -/
def divideRoundInt (dividend divisor : Int) : Int :=
  dividend.tdiv divisor + (if roundedPolicy then ((dividend * 2).tdiv divisor).tmod 2 else 0)

/-- `MidaDecimal.#divideRound`, including the re-materialization through
`#toString` and the constructor; `none` models the `RangeError` thrown by
`bigint` division by zero. -/
def divideRound (dividend divisor : Int) : Option Int :=
  if divisor = 0 then none else construct (midaToString (divideRoundInt dividend divisor))

def decMultiply (a b : Int) : Option Int := divideRound (a * b) shift

def decDivide (a b : Int) : Option Int := divideRound (a * shift) b

def decEquals (a b : Int) : Bool := a == b

def decGreaterThan (a b : Int) : Bool := decide (b < a)

def decGreaterThanOrEqual (a b : Int) : Bool := decGreaterThan a b || decEquals a b

def decLessThan (a b : Int) : Bool := decide (a < b)

def decLessThanOrEqual (a b : Int) : Bool := decLessThan a b || decEquals a b

/-- `MidaDecimal.abs`: `operand.lessThan(0)` compares with `decimal(0)`
(scaled value `0`); `operand.multiply(-1)` multiplies by `decimal(-1)`,
whose scaled value is `-shift`. -/
def decAbs (a : Int) : Option Int :=
  if decLessThan a 0 then decMultiply a (-shift) else some a

/-- The loop body of `MidaDecimal.min`: at every iteration the compared
operand is `operands[0]` (the first element), exactly as in the source. -/
def decMinLoop (first : Int) : Int → List Int → Int
  | acc, [] => acc
  | acc, _ :: rest => decMinLoop first (if decLessThan first acc then first else acc) rest

/-- `MidaDecimal.min` over the scaled values of its operands; `none` models
the `undefined` result on an empty argument list. -/
def decMin : List Int → Option Int
  | [] => none
  | x :: xs => some (decMinLoop x x xs)

/-- The loop body of `MidaDecimal.max`: at every iteration the compared
operand is `operands[0]` (the first element), exactly as in the source. -/
def decMaxLoop (first : Int) : Int → List Int → Int
  | acc, [] => acc
  | acc, _ :: rest => decMaxLoop first (if decGreaterThan first acc then first else acc) rest

/-- `MidaDecimal.max` over the scaled values of its operands; `none` models
the `undefined` result on an empty argument list. -/
def decMax : List Int → Option Int
  | [] => none
  | x :: xs => some (decMaxLoop x x xs)

/-- Modelled from the spec, for comparison with `divideRoundInt`:
"Round-half-up: rounding rule where a discarded fraction of exactly or more
than one-half rounds the kept digit away from zero."  For natural `p`, `q`
with `q > 0`, round-half-up of `p / q` is `⌊(2p + q) / (2q)⌋`; the sign of
the rounded quotient is the product of the operand signs (rounding away from
zero acts on the magnitude). -/
def roundHalfAwaySpec (dividend divisor : Int) : Int :=
  dividend.sign * divisor.sign *
    ((2 * dividend.natAbs + divisor.natAbs) / (2 * divisor.natAbs) : Nat)

/-! ## The event emitter

Modelled from the spec: the `MidaEmitter` implementation itself is not part
of the sources here (only its test suite is), so the registration table and
its operations follow §3/§4.2 of the specification: `listenersByType` is an
ordered sequence of registrations `(id, type, oneShot)`, ids are unique
fresh strings (modelled as increasing naturals), `addEventListener` appends
a persistent registration, `removeEventListener` deletes by id (a no-op on
unknown ids), and `notifyListeners` invokes every current registration of
the given type in insertion order, then drops the one-shot ones.  Callback
invocation is observed through the list of invoked registration ids. -/

structure MidaRegistration where
  regId : Nat
  eventType : String
  oneShot : Bool
deriving DecidableEq

structure MidaEmitterState where
  listeners : List MidaRegistration
  nextId : Nat
deriving DecidableEq

/-- Modelled from the spec: `addEventListener(type, callback) -> id` appends
a persistent registration for `type` and returns a fresh unique id. -/
def addEventListener (e : MidaEmitterState) (t : String) : MidaEmitterState × Nat :=
  (⟨e.listeners ++ [⟨e.nextId, t, false⟩], e.nextId + 1⟩, e.nextId)

/-- Modelled from the spec: `removeEventListener(id)` removes the
registration with that id from whichever type-bucket holds it; no-op if the
id is unknown or already removed. -/
def removeEventListener (e : MidaEmitterState) (i : Nat) : MidaEmitterState :=
  ⟨e.listeners.filter (fun r => r.regId ≠ i), e.nextId⟩

/-- Modelled from the spec: `notifyListeners(type, data?)` invokes every
current registration for `type` in registration order (returned as the list
of invoked ids) and removes one-shot registrations after firing. -/
def notifyListeners (e : MidaEmitterState) (t : String) : MidaEmitterState × List Nat :=
  (⟨e.listeners.filter (fun r => ¬(r.eventType = t ∧ r.oneShot)), e.nextId⟩,
   (e.listeners.filter (fun r => r.eventType = t)).map (fun r => r.regId))

/-- State after `k` successive `notifyListeners` calls for type `t`. -/
def notifyIter (e : MidaEmitterState) (t : String) : Nat → MidaEmitterState
  | 0 => e
  | k + 1 => notifyIter (notifyListeners e t).1 t k

/-- Total number of invocations of the listener with id `i` over `k`
successive `notifyListeners` calls for type `t` (the external counter of the
test scenario). -/
def notifyCount (e : MidaEmitterState) (t : String) (i : Nat) : Nat → Nat
  | 0 => 0
  | k + 1 => ((notifyListeners e t).2.count i) + notifyCount (notifyListeners e t).1 t i k

/-- Well-formedness: every registered id was minted before `nextId`. -/
def EmitterWF (e : MidaEmitterState) : Prop :=
  ∀ r ∈ e.listeners, r.regId < e.nextId

/-- The registration with id `i` is present exactly once, with type `t` and
persistent (`oneShot = false`). -/
def HasListener (e : MidaEmitterState) (i : Nat) (t : String) : Prop :=
  e.listeners.countP (fun r => r.regId == i) = 1 ∧
  ∀ r ∈ e.listeners, r.regId = i → r.eventType = t ∧ r.oneShot = false

/-- No registration with id `i` is present. -/
def NoListener (e : MidaEmitterState) (i : Nat) : Prop :=
  e.listeners.countP (fun r => r.regId == i) = 0

/-! ## Basic facts about digits and digit strings -/

theorem digitVal_ofNat {r : Nat} (h : r < 10) : digitVal (Char.ofNat (r + 48)) = r := by
  interval_cases r <;> decide

theorem isDigit_ofNat {r : Nat} (h : r < 10) : (Char.ofNat (r + 48)).isDigit = true := by
  interval_cases r <;> decide

theorem ne_of_isDigit {c : Char} (h : c.isDigit = true) : c ≠ '-' ∧ c ≠ '.' ∧ c ≠ '+' := by
  refine ⟨?_, ?_, ?_⟩ <;> rintro rfl <;> exact absurd h (by decide)

theorem natFromDigits_go (s : List Char) :
    ∀ acc : Nat, s.foldl (fun a c => 10 * a + digitVal c) acc =
      acc * 10 ^ s.length + natFromDigits s := by
  induction s with
  | nil => intro acc; simp [natFromDigits]
  | cons c t ih =>
    intro acc
    have h1 := ih (10 * acc + digitVal c)
    have h2 := ih (10 * 0 + digitVal c)
    simp only [List.foldl_cons, List.length_cons, natFromDigits] at *
    rw [h1, h2]; ring

theorem natFromDigits_append (a b : List Char) :
    natFromDigits (a ++ b) = natFromDigits a * 10 ^ b.length + natFromDigits b := by
  unfold natFromDigits
  rw [List.foldl_append, natFromDigits_go]
  rfl

theorem natFromDigits_replicate_zero (k : Nat) :
    natFromDigits (List.replicate k '0') = 0 := by
  induction k with
  | zero => simp [natFromDigits]
  | succ n ih =>
    rw [List.replicate_succ]
    unfold natFromDigits at *
    simpa [digitVal] using ih

theorem natFromDigits_prepend_zeros (k : Nat) (s : List Char) :
    natFromDigits (List.replicate k '0' ++ s) = natFromDigits s := by
  rw [natFromDigits_append, natFromDigits_replicate_zero]; ring

theorem natFromDigits_append_zeros (s : List Char) (k : Nat) :
    natFromDigits (s ++ List.replicate k '0') = natFromDigits s * 10 ^ k := by
  rw [natFromDigits_append, natFromDigits_replicate_zero, List.length_replicate]; ring

theorem natFromDigits_cons_zero (s : List Char) :
    natFromDigits ('0' :: s) = natFromDigits s :=
  natFromDigits_prepend_zeros 1 s

theorem natFromDigits_all_zero {s : List Char} (h : ∀ c ∈ s, c = '0') :
    natFromDigits s = 0 := by
  rw [List.eq_replicate_of_mem h, natFromDigits_replicate_zero]

/-! ## Facts about `natToChars` -/

theorem natToCharsAux_all_digits : ∀ fuel n : Nat, (natToCharsAux fuel n).all Char.isDigit = true := by
  intro fuel
  induction fuel with
  | zero => intro n; simp [natToCharsAux]
  | succ f ih =>
    intro n
    unfold natToCharsAux
    by_cases hn : n = 0
    · simp [hn]
    · simp only [hn, if_false, List.all_append, Bool.and_eq_true]
      exact ⟨ih _, by simpa using isDigit_ofNat (Nat.mod_lt n (by norm_num))⟩

theorem natToChars_all_digits (n : Nat) : (natToChars n).all Char.isDigit = true := by
  unfold natToChars
  by_cases hn : n = 0
  · simp [hn]
  · simp only [hn, if_false]; exact natToCharsAux_all_digits n n

theorem natFromDigits_natToCharsAux :
    ∀ fuel n : Nat, n ≤ fuel → natFromDigits (natToCharsAux fuel n) = n := by
  intro fuel
  induction fuel with
  | zero => intro n h; interval_cases n; simp [natToCharsAux, natFromDigits]
  | succ f ih =>
    intro n h
    unfold natToCharsAux
    by_cases hn : n = 0
    · simp [hn, natFromDigits]
    · have hlt : n / 10 < n := Nat.div_lt_self (Nat.pos_of_ne_zero hn) (by norm_num)
      have hle : n / 10 ≤ f := by omega
      simp only [hn, if_false]
      rw [natFromDigits_append, ih _ hle]
      have : natFromDigits [Char.ofNat (n % 10 + 48)] = n % 10 := by
        unfold natFromDigits
        simp [digitVal_ofNat (Nat.mod_lt n (by norm_num))]
      rw [this]
      simp only [List.length_singleton, pow_one]
      omega

theorem natFromDigits_natToChars (n : Nat) : natFromDigits (natToChars n) = n := by
  unfold natToChars
  by_cases hn : n = 0
  · simp [hn]; decide
  · simp only [hn, if_false]; exact natFromDigits_natToCharsAux n n le_rfl

theorem natToChars_ne_nil (n : Nat) : natToChars n ≠ [] := by
  unfold natToChars
  by_cases hn : n = 0
  · simp [hn]
  · simp only [hn, if_false]
    obtain ⟨f, hf⟩ : ∃ f, n = f + 1 := ⟨n - 1, by omega⟩
    rw [hf]
    unfold natToCharsAux
    simp [show ¬(f + 1 = 0) by omega]

/-! ## Generic list helpers -/

theorem takeWhile_all_append (p : Char → Bool) (a b : List Char) (h : a.all p = true) :
    (a ++ b).takeWhile p = a ++ b.takeWhile p := by
  induction a with
  | nil => simp
  | cons c t ih =>
    simp only [List.all_cons, Bool.and_eq_true] at h
    simp [List.takeWhile_cons, h.1, ih h.2]

theorem dropWhile_all_append (p : Char → Bool) (a b : List Char) (h : a.all p = true) :
    (a ++ b).dropWhile p = b.dropWhile p := by
  induction a with
  | nil => simp
  | cons c t ih =>
    simp only [List.all_cons, Bool.and_eq_true] at h
    simp [List.dropWhile_cons, h.1, ih h.2]

theorem dropWhile_head_not (p : Char → Bool) (l : List Char) {c : Char}
    (h : (l.dropWhile p).head? = some c) : p c = false := by
  induction l with
  | nil => simp at h
  | cons x t ih =>
    rw [List.dropWhile_cons] at h
    by_cases hx : p x = true
    · exact ih (by simpa [hx] using h)
    · rw [if_neg hx] at h
      simp only [List.head?_cons, Option.some.injEq] at h
      subst h
      simpa using hx

theorem contains_eq_false_of_not_mem {s : List Char} {c : Char} (h : c ∉ s) :
    s.contains c = false := by
  simp [List.contains, List.elem_eq_mem, h]

theorem contains_eq_true_of_mem {s : List Char} {c : Char} (h : c ∈ s) :
    s.contains c = true := by
  simp [List.contains, List.elem_eq_mem, h]

theorem not_mem_dash_of_digits {s : List Char} (h : s.all Char.isDigit = true) : '-' ∉ s := by
  intro hm
  exact absurd (List.all_eq_true.mp h _ hm) (by decide)

theorem not_mem_dot_of_digits {s : List Char} (h : s.all Char.isDigit = true) : '.' ∉ s := by
  intro hm
  exact absurd (List.all_eq_true.mp h _ hm) (by decide)

theorem all_ne_dot_of_digits {s : List Char} (h : s.all Char.isDigit = true) :
    s.all (· ≠ '.') = true := by
  rw [List.all_eq_true] at h ⊢
  intro c hc
  simpa using (ne_of_isDigit (h c hc)).2.1

theorem replaceFirst_append_of_not_mem {a : List Char} (b : List Char) {c : Char}
    (h : c ∉ a) (r : List Char) :
    replaceFirst (a ++ b) c r = a ++ replaceFirst b c r := by
  induction a with
  | nil => simp
  | cons x t ih =>
    simp only [List.mem_cons, not_or] at h
    have hxc : x ≠ c := fun hh => h.1 hh.symm
    simp only [List.cons_append, replaceFirst, if_neg hxc, List.append_eq, ih h.2]

theorem replaceFirst_cons_self (t : List Char) (c : Char) (r : List Char) :
    replaceFirst (c :: t) c r = r ++ t := by
  unfold replaceFirst
  simp

/-! ## Facts about `stripTrailingZeros` -/

theorem strip_of_no_dot {s : List Char} (h : '.' ∉ s) :
    stripTrailingZeros s = (s.reverse.dropWhile (· = '0')).reverse := by
  unfold stripTrailingZeros
  have hcond : ¬((s.reverse.dropWhile (· = '0')).length < s.length ∧
      (s.reverse.dropWhile (· = '0')).head? = some '.') := by
    rintro ⟨-, hh⟩
    have hmem : '.' ∈ s.reverse.dropWhile (· = '0') := by
      cases hd : s.reverse.dropWhile (· = '0') with
      | nil => rw [hd] at hh; simp at hh
      | cons x t =>
        rw [hd] at hh
        simp only [List.head?_cons, Option.some.injEq] at hh
        simp [hh]
    have hrev : '.' ∈ s.reverse := List.Sublist.mem hmem (List.dropWhile_sublist _)
    exact h (by simpa using hrev)
  simp [hcond]

theorem strip_decomp {s : List Char} (h : '.' ∉ s) :
    ∃ k, s = stripTrailingZeros s ++ List.replicate k '0' := by
  rw [strip_of_no_dot h]
  refine ⟨(s.reverse.takeWhile (· = '0')).length, ?_⟩
  have hsplit := List.takeWhile_append_dropWhile (l := s.reverse) (p := (· = '0'))
  have htake : s.reverse.takeWhile (· = '0') =
      List.replicate (s.reverse.takeWhile (· = '0')).length '0' := by
    apply List.eq_replicate_of_mem
    intro b hb
    simpa using List.mem_takeWhile_imp hb
  calc s = s.reverse.reverse := by simp
    _ = ((s.reverse.takeWhile (· = '0')) ++ (s.reverse.dropWhile (· = '0'))).reverse := by
        rw [hsplit]
    _ = (s.reverse.dropWhile (· = '0')).reverse ++ (s.reverse.takeWhile (· = '0')).reverse := by
        rw [List.reverse_append]
    _ = _ := by conv_lhs => rw [htake, List.reverse_replicate]

theorem strip_length_le {s : List Char} (h : '.' ∉ s) :
    (stripTrailingZeros s).length ≤ s.length := by
  obtain ⟨k, hk⟩ := strip_decomp h
  conv_rhs => rw [hk]
  simp

theorem strip_mem_subset {s : List Char} (h : '.' ∉ s) {c : Char}
    (hc : c ∈ stripTrailingZeros s) : c ∈ s := by
  obtain ⟨k, hk⟩ := strip_decomp h
  rw [hk]
  exact List.mem_append_left _ hc

theorem strip_all_digits {s : List Char} (h : s.all Char.isDigit = true) :
    (stripTrailingZeros s).all Char.isDigit = true := by
  rw [List.all_eq_true]
  intro c hc
  exact List.all_eq_true.mp h c (strip_mem_subset (not_mem_dot_of_digits h) hc)

theorem strip_nil_all_zero {s : List Char} (hdot : '.' ∉ s)
    (h : stripTrailingZeros s = []) : ∀ c ∈ s, c = '0' := by
  obtain ⟨k, hk⟩ := strip_decomp hdot
  rw [h] at hk
  intro c hc
  rw [hk] at hc
  simpa using (List.mem_replicate.mp (by simpa using hc)).2

theorem strip_getLast_ne_zero {s : List Char} (hdot : '.' ∉ s) {c : Char}
    (h : (stripTrailingZeros s).getLast? = some c) : c ≠ '0' := by
  rw [strip_of_no_dot hdot, List.getLast?_reverse] at h
  have := dropWhile_head_not (· = '0') s.reverse h
  simpa using this

theorem strip_eq_of_decomp {s t : List Char} {k : Nat} (hdot : '.' ∉ s)
    (hs : s = t ++ List.replicate k '0')
    (hlast : ∀ c, t.getLast? = some c → c ≠ '0') :
    stripTrailingZeros s = t := by
  rw [strip_of_no_dot hdot, hs, List.reverse_append, List.reverse_replicate]
  rw [dropWhile_all_append _ _ _ (by simp [List.all_eq_true, List.mem_replicate])]
  cases ht : t.reverse with
  | nil =>
    have ht2 : t = [] := by simpa using congrArg List.reverse ht
    simp [ht2]
  | cons x xs =>
    have hx : t.getLast? = some x := by
      rw [← List.head?_reverse, ht, List.head?_cons]
    rw [List.dropWhile_cons, if_neg (by simp [hlast x hx]), ← ht]
    simp

/-! ## Facts about `padTakeScale`, `jsNumberFinite`, `bigIntOfChars`, `splitDot` -/

theorem padTakeScale_of_le {s : List Char} (h : s.length ≤ SCALE) :
    padTakeScale s = s ++ List.replicate (SCALE - s.length) '0' := by
  unfold padTakeScale
  have hlen : (s ++ List.replicate (SCALE - s.length) '0').length ≤ SCALE := by
    simp; omega
  rw [List.take_of_length_le hlen]

theorem padTakeScale_strip {d : List Char} (hdot : '.' ∉ d) (hlen : d.length = SCALE) :
    padTakeScale (stripTrailingZeros d) = d := by
  obtain ⟨k, hk⟩ := strip_decomp hdot
  have hl : (stripTrailingZeros d).length + k = SCALE := by
    have h2 := congrArg List.length hk
    simp only [List.length_append, List.length_replicate, hlen] at h2
    omega
  rw [padTakeScale_of_le (by omega)]
  have hkk : SCALE - (stripTrailingZeros d).length = k := by omega
  rw [hkk, ← hk]

theorem jsNumberFinite_digits {s : List Char} (h : s.all Char.isDigit = true) :
    jsNumberFinite s = true := by
  cases s with
  | nil => rfl
  | cons c t =>
    simp only [List.all_cons, Bool.and_eq_true] at h
    have hc := ne_of_isDigit h.1
    unfold jsNumberFinite
    have hsg : ¬(c = '-' ∨ c = '+') := by
      rintro (rfl | rfl) <;> simp at hc
    simp only [hsg, if_false]
    have htk : (c :: t).takeWhile Char.isDigit = c :: t := by
      rw [List.takeWhile_eq_self_iff]
      intro x hx
      rcases List.mem_cons.mp hx with rfl | hx2
      · exact h.1
      · exact List.all_eq_true.mp h.2 x hx2
    have hdr : (c :: t).dropWhile Char.isDigit = [] := by
      rw [List.dropWhile_eq_nil_iff]
      intro x hx
      rcases List.mem_cons.mp hx with rfl | hx2
      · exact h.1
      · exact List.all_eq_true.mp h.2 x hx2
    rw [htk, hdr]
    simp

theorem bigIntOfChars_digits {s : List Char} (h : s.all Char.isDigit = true) (hne : s ≠ []) :
    bigIntOfChars s = some ((natFromDigits s : Nat) : Int) := by
  cases s with
  | nil => exact absurd rfl hne
  | cons c t =>
    have hc := ne_of_isDigit (by simpa using (List.all_eq_true.mp h c (by simp)))
    simp only [bigIntOfChars]
    rw [if_neg hc.1, if_pos h]

theorem bigIntOfChars_neg {s : List Char} (h : s.all Char.isDigit = true) (hne : s ≠ []) :
    bigIntOfChars ('-' :: s) = some (-((natFromDigits s : Nat) : Int)) := by
  simp only [bigIntOfChars]
  simp [hne, h]

theorem splitDot_no_dot {s : List Char} (h : s.all (· ≠ '.') = true) :
    splitDot s = (s, []) := by
  unfold splitDot
  have h1 : s.takeWhile (· ≠ '.') = s := by
    rw [List.takeWhile_eq_self_iff]
    exact fun x hx => List.all_eq_true.mp h x hx
  have h2 : s.dropWhile (· ≠ '.') = [] := by
    rw [List.dropWhile_eq_nil_iff]
    exact fun x hx => List.all_eq_true.mp h x hx
  rw [h1, h2]
  simp

theorem splitDot_mid {a b : List Char} (ha : a.all (· ≠ '.') = true)
    (hb : b.all (· ≠ '.') = true) :
    splitDot (a ++ '.' :: b) = (a, b) := by
  unfold splitDot
  have htk : (a ++ '.' :: b).takeWhile (· ≠ '.') = a := by
    rw [takeWhile_all_append _ _ _ ha, List.takeWhile_cons]
    simp
  have hdr : (a ++ '.' :: b).dropWhile (· ≠ '.') = '.' :: b := by
    rw [dropWhile_all_append _ _ _ ha, List.dropWhile_cons]
    simp
  rw [htk, hdr]
  simp only [List.drop_succ_cons, List.drop_zero]
  rw [List.takeWhile_eq_self_iff.mpr (fun x hx => List.all_eq_true.mp hb x hx)]

theorem roundIncAt_short {d : List Char} (h : d.length ≤ SCALE) : roundIncAt d = 0 := by
  unfold roundIncAt
  rw [List.getElem?_eq_none h]

/-! ## Parsing the output shapes of `#toString` -/

theorem construct_assembled_pos {A B : List Char}
    (hA : A.all Char.isDigit = true) (hB : B.all Char.isDigit = true)
    (hAne : A ≠ []) (hBlen : B.length = SCALE) :
    construct (A ++ (if stripTrailingZeros B = [] then []
      else '.' :: stripTrailingZeros B)) = some ((natFromDigits (A ++ B) : Nat) : Int) := by
  have hBdot : '.' ∉ B := not_mem_dot_of_digits hB
  have hD : (stripTrailingZeros B).all Char.isDigit = true := strip_all_digits hB
  have hDlen : (stripTrailingZeros B).length ≤ SCALE := hBlen ▸ strip_length_le hBdot
  have hsplit : splitDot (A ++ (if stripTrailingZeros B = [] then []
      else '.' :: stripTrailingZeros B)) = (A, stripTrailingZeros B) := by
    by_cases hD0 : stripTrailingZeros B = []
    · rw [if_pos hD0, List.append_nil, splitDot_no_dot (all_ne_dot_of_digits hA), hD0]
    · rw [if_neg hD0]
      exact splitDot_mid (all_ne_dot_of_digits hA) (all_ne_dot_of_digits hD)
  have hparts : constructParts (A ++ (if stripTrailingZeros B = [] then []
      else '.' :: stripTrailingZeros B)) = (false, A, stripTrailingZeros B) := by
    simp only [constructParts, hsplit]
    rw [contains_eq_false_of_not_mem (not_mem_dash_of_digits hD),
        contains_eq_false_of_not_mem (not_mem_dash_of_digits hA)]
    simp
  have hABne : A ++ B ≠ [] := by
    intro hh
    exact hAne (List.append_eq_nil.mp hh).1
  have hABdig : (A ++ B).all Char.isDigit = true := by
    rw [List.all_append, hA, hB]
    rfl
  simp only [construct, hparts]
  rw [if_pos ⟨jsNumberFinite_digits hA, jsNumberFinite_digits hD⟩]
  rw [padTakeScale_strip hBdot hBlen]
  simp only [Bool.false_eq_true, if_false, List.nil_append]
  rw [bigIntOfChars_digits hABdig hABne, roundIncAt_short hDlen]
  simp

theorem construct_assembled_neg1 {A B : List Char}
    (hA : A.all Char.isDigit = true) (hB : B.all Char.isDigit = true)
    (hBlen : B.length = SCALE) :
    construct ('-' :: (A ++ (if stripTrailingZeros B = [] then []
      else '.' :: stripTrailingZeros B))) = some (-((natFromDigits (A ++ B) : Nat) : Int)) := by
  have hBdot : '.' ∉ B := not_mem_dot_of_digits hB
  have hD : (stripTrailingZeros B).all Char.isDigit = true := strip_all_digits hB
  have hDlen : (stripTrailingZeros B).length ≤ SCALE := hBlen ▸ strip_length_le hBdot
  have hallne : ('-' :: A).all (· ≠ '.') = true := by
    rw [List.all_cons, all_ne_dot_of_digits hA]
    decide
  have hsplit : splitDot ('-' :: (A ++ (if stripTrailingZeros B = [] then []
      else '.' :: stripTrailingZeros B))) = ('-' :: A, stripTrailingZeros B) := by
    by_cases hD0 : stripTrailingZeros B = []
    · rw [if_pos hD0, List.append_nil, splitDot_no_dot hallne, hD0]
    · rw [if_neg hD0]
      have : '-' :: (A ++ '.' :: stripTrailingZeros B) =
          ('-' :: A) ++ '.' :: stripTrailingZeros B := by simp
      rw [this]
      exact splitDot_mid hallne (all_ne_dot_of_digits hD)
  have hparts : constructParts ('-' :: (A ++ (if stripTrailingZeros B = [] then []
      else '.' :: stripTrailingZeros B))) = (true, A, stripTrailingZeros B) := by
    simp only [constructParts, hsplit]
    rw [contains_eq_false_of_not_mem (not_mem_dash_of_digits hD),
        contains_eq_true_of_mem (List.mem_cons_self '-' A)]
    simp [replaceFirst_cons_self]
  have hBne : B ≠ [] := by
    intro hh
    rw [hh] at hBlen
    simp [SCALE] at hBlen
  have hABne : A ++ B ≠ [] := by
    intro hh
    exact hBne (List.append_eq_nil.mp hh).2
  have hABdig : (A ++ B).all Char.isDigit = true := by
    rw [List.all_append, hA, hB]
    rfl
  simp only [construct, hparts]
  rw [if_pos ⟨jsNumberFinite_digits hA, jsNumberFinite_digits hD⟩]
  rw [padTakeScale_strip hBdot hBlen]
  simp only [if_true, List.nil_append, List.singleton_append, List.cons_append]
  rw [bigIntOfChars_neg hABdig hABne, roundIncAt_short hDlen]
  simp

theorem construct_assembled_neg2 {D : List Char} (hD : D.all Char.isDigit = true)
    (_hne : D ≠ []) (hlen : D.length ≤ SCALE) :
    construct ('-' :: '0' :: '.' :: D) =
      some (-((natFromDigits D * 10 ^ (SCALE - D.length) : Nat) : Int)) := by
  have hsplit : splitDot ('-' :: '0' :: '.' :: D) = (['-', '0'], D) := by
    have : ('-' :: '0' :: '.' :: D : List Char) = ['-', '0'] ++ '.' :: D := by simp
    rw [this]
    exact splitDot_mid (by decide) (all_ne_dot_of_digits hD)
  have hparts : constructParts ('-' :: '0' :: '.' :: D) = (true, ['0'], D) := by
    simp only [constructParts, hsplit]
    rw [contains_eq_false_of_not_mem (not_mem_dash_of_digits hD),
        contains_eq_true_of_mem (List.mem_cons_self '-' ['0'])]
    simp [replaceFirst_cons_self]
  have hpadd : (padTakeScale D).all Char.isDigit = true := by
    rw [padTakeScale_of_le hlen, List.all_append, hD]
    simp [List.all_eq_true, List.mem_replicate]
  have hpdig : ('0' :: padTakeScale D).all Char.isDigit = true := by
    rw [List.all_cons, hpadd]
    rfl
  simp only [construct, hparts]
  rw [if_pos ⟨by decide, jsNumberFinite_digits hD⟩]
  simp only [if_true, List.nil_append, List.singleton_append, List.cons_append]
  rw [bigIntOfChars_neg hpdig (by simp), roundIncAt_short hlen]
  rw [natFromDigits_cons_zero, padTakeScale_of_le hlen, natFromDigits_append_zeros]
  simp

/-! ## Anatomy of the `#toString` output -/
theorem all_of_sublist {p : Char → Bool} {l1 l2 : List Char} (h : l1.Sublist l2)
    (hall : l2.all p = true) : l1.all p = true := by
  rw [List.all_eq_true] at hall ⊢
  exact fun x hx => hall x (List.Sublist.mem hx h)

theorem midaToString_nonneg (n : Nat) :
    ∃ A B : List Char, A.all Char.isDigit = true ∧ B.all Char.isDigit = true ∧
      A ≠ [] ∧ B.length = SCALE ∧ natFromDigits (A ++ B) = n ∧
      midaToString (n : Int) = A ++ (if stripTrailingZeros B = [] then []
        else '.' :: stripTrailingZeros B) := by
  have hio : intToChars (n : Int) = natToChars n := by
    unfold intToChars
    rw [if_neg (by exact not_lt.mpr (Int.natCast_nonneg n))]
    rw [Int.natAbs_ofNat]
  set chars := natToChars n with hchars
  set k := chars.length with hk
  have hk1 : 1 ≤ k := List.length_pos.mpr (natToChars_ne_nil n)
  set desc := List.replicate (SCALE + 1 - k) '0' ++ chars with hdesc
  have hdescpad : padStartZeros chars (SCALE + 1) = desc := rfl
  have hdlen : desc.length = (SCALE + 1 - k) + k := by
    rw [hdesc]; simp
  have hdig : desc.all Char.isDigit = true := by
    rw [hdesc, List.all_append]
    have h1 : (List.replicate (SCALE + 1 - k) '0').all Char.isDigit = true := by
      simp [List.all_eq_true, List.mem_replicate]
    rw [h1, hchars]
    simp [natToChars_all_digits]
  set A := desc.take (desc.length - SCALE) with hA
  set B := desc.drop (desc.length - SCALE) with hB
  have hAB : A ++ B = desc := List.take_append_drop _ _
  have hL : SCALE + 1 ≤ desc.length := by rw [hdlen]; omega
  have hAlen : A.length = desc.length - SCALE := by
    rw [hA, List.length_take]
    omega
  have hAne : A ≠ [] := by
    have : 0 < A.length := by rw [hAlen]; omega
    exact List.length_pos.mp this
  have hBlen : B.length = SCALE := by
    rw [hB, List.length_drop]
    omega
  have hAdig : A.all Char.isDigit = true := all_of_sublist (List.take_sublist _ _) hdig
  have hBdig : B.all Char.isDigit = true := all_of_sublist (List.drop_sublist _ _) hdig
  refine ⟨A, B, hAdig, hBdig, hAne, hBlen, ?_, ?_⟩
  · rw [hAB, hdesc, natFromDigits_prepend_zeros, hchars, natFromDigits_natToChars]
  · simp only [midaToString]
    rw [hio, hdescpad]
    rw [contains_eq_false_of_not_mem (not_mem_dash_of_digits
      (strip_all_digits hBdig))]
    rw [contains_eq_false_of_not_mem (not_mem_dash_of_digits hAdig)]
    simp

theorem midaToString_neg_big (a : Nat) (ha : 0 < a) (hk : SCALE ≤ (natToChars a).length) :
    ∃ A B : List Char, A.all Char.isDigit = true ∧ B.all Char.isDigit = true ∧
      B.length = SCALE ∧ natFromDigits (A ++ B) = a ∧
      midaToString (-(a : Int)) = '-' :: (A ++ (if stripTrailingZeros B = [] then []
        else '.' :: stripTrailingZeros B)) := by
  have hio : intToChars (-(a : Int)) = '-' :: natToChars a := by
    unfold intToChars
    rw [if_pos (by omega), Int.natAbs_neg, Int.natAbs_ofNat]
  set chars := natToChars a with hchars
  set k := chars.length with hk2
  have hcdig : chars.all Char.isDigit = true := natToChars_all_digits a
  have hdescpad : padStartZeros ('-' :: chars) (SCALE + 1) = '-' :: chars := by
    unfold padStartZeros
    have h0 : SCALE + 1 - ('-' :: chars).length = 0 := by
      simp only [List.length_cons]
      omega
    rw [h0]
    simp
  have hlen : ('-' :: chars).length = k + 1 := by simp
  have hidx : ('-' :: chars).length - SCALE = (k - SCALE) + 1 := by
    rw [hlen]; omega
  set A := chars.take (k - SCALE) with hA
  set B := chars.drop (k - SCALE) with hB
  have htake : ('-' :: chars).take (('-' :: chars).length - SCALE) = '-' :: A := by
    rw [hidx, List.take_succ_cons]
  have hdrop : ('-' :: chars).drop (('-' :: chars).length - SCALE) = B := by
    rw [hidx, List.drop_succ_cons]
  have hAdig : A.all Char.isDigit = true := all_of_sublist (List.take_sublist _ _) hcdig
  have hBdig : B.all Char.isDigit = true := all_of_sublist (List.drop_sublist _ _) hcdig
  have hBlen : B.length = SCALE := by
    rw [hB, List.length_drop, ← hk2]
    omega
  refine ⟨A, B, hAdig, hBdig, hBlen, ?_, ?_⟩
  · rw [List.take_append_drop, hchars, natFromDigits_natToChars]
  · simp only [midaToString]
    rw [hio, hdescpad, htake, hdrop]
    rw [contains_eq_false_of_not_mem (not_mem_dash_of_digits (strip_all_digits hBdig))]
    rw [contains_eq_true_of_mem (List.mem_cons_self '-' A)]
    rw [replaceFirst_cons_self]
    simp

theorem midaToString_neg_small (a : Nat) (ha : 0 < a) (hk : (natToChars a).length < SCALE) :
    ∃ D : List Char, D.all Char.isDigit = true ∧ D ≠ [] ∧ D.length ≤ SCALE ∧
      (natFromDigits D * 10 ^ (SCALE - D.length)) = a ∧
      midaToString (-(a : Int)) = '-' :: '0' :: '.' :: D := by
  have hio : intToChars (-(a : Int)) = '-' :: natToChars a := by
    unfold intToChars
    rw [if_pos (by omega), Int.natAbs_neg, Int.natAbs_ofNat]
  set chars := natToChars a with hchars
  set k := chars.length with hk2
  have hk1 : 1 ≤ k := List.length_pos.mpr (natToChars_ne_nil a)
  have hcdig : chars.all Char.isDigit = true := natToChars_all_digits a
  have hcdot : '.' ∉ chars := not_mem_dot_of_digits hcdig
  set q := stripTrailingZeros chars with hq
  obtain ⟨z, hz⟩ := strip_decomp hcdot
  have hqdig : q.all Char.isDigit = true := strip_all_digits hcdig
  have hqne : q ≠ [] := by
    intro h0
    have hall := strip_nil_all_zero hcdot (hq ▸ h0)
    have : natFromDigits chars = 0 := natFromDigits_all_zero hall
    rw [hchars, natFromDigits_natToChars] at this
    omega
  have hqlen : q.length + z = k := by
    have := congrArg List.length hz
    simp only [List.length_append, List.length_replicate, ← hq, ← hk2] at this
    omega
  -- the descriptor
  have hdescpad : padStartZeros ('-' :: chars) (SCALE + 1) =
      '0' :: (List.replicate (SCALE - 1 - k) '0' ++ '-' :: chars) := by
    unfold padStartZeros
    have h0 : SCALE + 1 - ('-' :: chars).length = (SCALE - 1 - k) + 1 := by
      simp only [List.length_cons]
      omega
    rw [h0, List.replicate_succ]
    simp
  set R := List.replicate (SCALE - 1 - k) '0' ++ '-' :: chars with hR
  have hRlen : ('0' :: R).length - SCALE = 1 := by
    rw [hR]
    simp only [List.length_cons, List.length_append, List.length_replicate]
    omega
  have hRdot : '.' ∉ R := by
    rw [hR]
    intro hmem
    rcases List.mem_append.mp hmem with h1 | h1
    · exact absurd (List.mem_replicate.mp h1).2 (by decide)
    · rcases List.mem_cons.mp h1 with h2 | h2
      · exact absurd h2 (by decide)
      · exact hcdot h2
  have hstripR : stripTrailingZeros R = List.replicate (SCALE - 1 - k) '0' ++ '-' :: q := by
    apply strip_eq_of_decomp hRdot (k := z)
    · rw [hR, hz]
      simp [List.append_assoc]
    · intro c hc
      rw [List.getLast?_append] at hc
      have hqlast : ('-' :: q).getLast? = q.getLast? := by
        have : ('-' :: q : List Char) = ['-'] ++ q := rfl
        rw [this, List.getLast?_append]
        cases hql : q.getLast? with
        | none => exact absurd (List.getLast?_eq_none_iff.mp hql) hqne
        | some x => simp
      rw [hqlast] at hc
      cases hql : q.getLast? with
      | none => exact absurd (List.getLast?_eq_none_iff.mp hql) hqne
      | some x =>
        rw [hql] at hc
        simp only [Option.or_some, Option.some.injEq] at hc
        subst hc
        exact strip_getLast_ne_zero hcdot hql
  set D := List.replicate (SCALE - k) '0' ++ q with hD
  have hDeq : List.replicate (SCALE - 1 - k) '0' ++ '0' :: q = D := by
    rw [hD]
    have : SCALE - k = (SCALE - 1 - k) + 1 := by omega
    rw [this, List.replicate_succ']
    simp
  have hDdig : D.all Char.isDigit = true := by
    rw [hD, List.all_append, hqdig]
    simp [List.all_eq_true, List.mem_replicate]
  have hDne : D ≠ [] := by
    rw [hD]
    intro hh
    exact hqne (List.append_eq_nil.mp hh).2
  have hqlen2 : q.length ≤ k := by omega
  have hDlen : D.length = (SCALE - k) + q.length := by
    rw [hD]; simp
  refine ⟨D, hDdig, hDne, by rw [hDlen]; omega, ?_, ?_⟩
  · have h1 : natFromDigits D = natFromDigits q := by
      rw [hD, natFromDigits_prepend_zeros]
    have h2 : SCALE - D.length = z := by omega
    rw [h1, h2, ← natFromDigits_append_zeros, ← hz, hchars, natFromDigits_natToChars]
  · simp only [midaToString]
    rw [hio, hdescpad, hRlen]
    rw [show (('0' :: R).take 1 : List Char) = ['0'] from rfl,
        show (('0' :: R).drop 1 : List Char) = R from rfl]
    rw [hstripR]
    rw [contains_eq_true_of_mem (List.mem_append_right _ (List.mem_cons_self '-' q))]
    rw [replaceFirst_append_of_not_mem _ (by simp [List.mem_replicate]) _]
    rw [replaceFirst_cons_self]
    simp only [List.singleton_append]
    rw [hDeq]
    simp only [if_true]
    rw [if_neg hDne]
    simp

/-! ## The round trip: parsing a `#toString` rendering recovers the value -/

theorem construct_midaToString (v : Int) : construct (midaToString v) = some v := by
  rcases Int.natAbs_eq v with hv | hv
  · rw [hv]
    obtain ⟨A, B, hAdig, hBdig, hAne, hBlen, hval, hstr⟩ := midaToString_nonneg v.natAbs
    rw [hstr, construct_assembled_pos hAdig hBdig hAne hBlen, hval]
  · rw [hv]
    rcases Nat.eq_zero_or_pos v.natAbs with h0 | hpos
    · rw [h0]
      simp only [Nat.cast_zero, neg_zero]
      obtain ⟨A, B, hAdig, hBdig, hAne, hBlen, hval, hstr⟩ := midaToString_nonneg 0
      rw [Nat.cast_zero] at hstr
      rw [hstr, construct_assembled_pos hAdig hBdig hAne hBlen, hval]
      rw [Nat.cast_zero]
    · by_cases hk : SCALE ≤ (natToChars v.natAbs).length
      · obtain ⟨A, B, hAdig, hBdig, hBlen, hval, hstr⟩ :=
          midaToString_neg_big v.natAbs hpos hk
        rw [hstr, construct_assembled_neg1 hAdig hBdig hBlen, hval]
      · obtain ⟨D, hDdig, hDne, hDlen, hval, hstr⟩ :=
          midaToString_neg_small v.natAbs hpos (not_le.mp hk)
        rw [hstr, construct_assembled_neg2 hDdig hDne hDlen, hval]

/-! ## Consequences for the arithmetic operations -/

theorem decAdd_eq (a b : Int) : decAdd a b = some (a + b) := construct_midaToString _

theorem decSub_eq (a b : Int) : decSub a b = some (a - b) := construct_midaToString _

theorem shift_ne_zero : shift ≠ 0 := by
  unfold shift
  positivity

theorem divideRound_eq (d : Int) {v : Int} (hv : v ≠ 0) :
    divideRound d v = some (divideRoundInt d v) := by
  unfold divideRound
  rw [if_neg hv]
  exact construct_midaToString _

theorem neg_tmod (a b : Int) : (-a).tmod b = -(a.tmod b) := by
  have h1 := Int.tmod_add_tdiv (-a) b
  have h2 := Int.tmod_add_tdiv a b
  rw [Int.neg_tdiv] at h1
  linarith

theorem decMultiply_negShift (a : Int) : decMultiply a (-shift) = some (-a) := by
  unfold decMultiply
  rw [divideRound_eq _ shift_ne_zero]
  have hdiv : divideRoundInt (a * -shift) shift = -a := by
    unfold divideRoundInt roundedPolicy
    simp only [if_true]
    rw [show a * -shift = -a * shift by ring, Int.mul_tdiv_cancel _ shift_ne_zero]
    rw [show -a * shift * 2 = (-a * 2) * shift by ring, Int.mul_tdiv_cancel _ shift_ne_zero]
    rw [show (-a * 2 : Int) = -a * 2 by ring, Int.mul_tmod_left]
    ring
  rw [hdiv]

/-! ## Round-half-up division: correctness on all sign combinations -/

theorem nat_round_half (a c : Nat) (hc : 0 < c) :
    a / c + 2 * a / c % 2 = (2 * a + c) / (2 * c) := by
  have hqr : c * (a / c) + a % c = a := Nat.div_add_mod a c
  have hrc : a % c < c := Nat.mod_lt a hc
  set q := a / c with hq
  set r := a % c with hr
  have h2a : 2 * a = 2 * r + c * (2 * q) := by rw [← hqr]; ring
  have hdiv1 : 2 * a / c = 2 * r / c + 2 * q := by
    rw [h2a, Nat.add_mul_div_left _ _ hc]
  have hb : 2 * r / c = if c ≤ 2 * r then 1 else 0 := by
    by_cases h : c ≤ 2 * r
    · rw [if_pos h]
      exact Nat.div_eq_of_lt_le (by omega) (by omega)
    · rw [if_neg h]
      exact Nat.div_eq_of_lt (by omega)
  have h2ac : 2 * a + c = (2 * r + c) + (2 * c) * q := by rw [← hqr]; ring
  have hdiv2 : (2 * a + c) / (2 * c) = (2 * r + c) / (2 * c) + q := by
    rw [h2ac, Nat.add_mul_div_left _ _ (by omega : 0 < 2 * c)]
  have hb2 : (2 * r + c) / (2 * c) = if c ≤ 2 * r then 1 else 0 := by
    by_cases h : c ≤ 2 * r
    · rw [if_pos h]
      exact Nat.div_eq_of_lt_le (by omega) (by omega)
    · rw [if_neg h]
      exact Nat.div_eq_of_lt (by omega)
  rw [hdiv1, hdiv2, hb, hb2]
  by_cases h : c ≤ 2 * r
  · simp only [if_pos h]
    omega
  · simp only [if_neg h]
    omega

theorem divideRoundInt_coe (a c : Nat) (hc : c ≠ 0) :
    divideRoundInt (a : Int) (c : Int) = (((2 * a + c) / (2 * c) : Nat) : Int) := by
  unfold divideRoundInt roundedPolicy
  simp only [if_true]
  rw [show ((a : Int) * 2) = ((a * 2 : Nat) : Int) by push_cast; ring]
  rw [← Int.ofNat_tdiv, ← Int.ofNat_tdiv]
  rw [show (2 : Int) = ((2 : Nat) : Int) from rfl, ← Int.ofNat_tmod]
  rw [show a * 2 = 2 * a by ring]
  exact_mod_cast congrArg (Nat.cast : Nat → Int) (nat_round_half a c (Nat.pos_of_ne_zero hc))

theorem divideRoundInt_neg_left (d v : Int) : divideRoundInt (-d) v = -divideRoundInt d v := by
  unfold divideRoundInt roundedPolicy
  simp only [if_true]
  rw [Int.neg_tdiv, show (-d * 2) = -(d * 2) by ring, Int.neg_tdiv, neg_tmod]
  ring

theorem divideRoundInt_neg_right (d v : Int) : divideRoundInt d (-v) = -divideRoundInt d v := by
  unfold divideRoundInt roundedPolicy
  simp only [if_true]
  rw [Int.tdiv_neg, Int.tdiv_neg, neg_tmod]
  ring

theorem divideRoundInt_correct (d v : Int) (hv : v ≠ 0) :
    divideRoundInt d v = roundHalfAwaySpec d v := by
  have hc : v.natAbs ≠ 0 := Int.natAbs_ne_zero.mpr hv
  rcases eq_or_ne d 0 with rfl | hd
  · unfold divideRoundInt roundedPolicy roundHalfAwaySpec
    simp [Int.zero_tdiv]
  · have ha : d.natAbs ≠ 0 := Int.natAbs_ne_zero.mpr hd
    have hsa : (d.natAbs : Int).sign = 1 := Int.sign_natCast_of_ne_zero ha
    have hsc : (v.natAbs : Int).sign = 1 := Int.sign_natCast_of_ne_zero hc
    rcases Int.natAbs_eq d with hd2 | hd2 <;> rcases Int.natAbs_eq v with hv2 | hv2 <;>
      rw [hd2, hv2] <;>
      unfold roundHalfAwaySpec <;>
      simp only [Int.natAbs_neg, Int.natAbs_ofNat, Int.sign_neg, hsa, hsc,
        divideRoundInt_neg_left, divideRoundInt_neg_right,
        divideRoundInt_coe d.natAbs v.natAbs hc] <;>
      ring

theorem countP_and_of_imp {α : Type} (l : List α) (p q : α → Bool)
    (h : ∀ a ∈ l, p a = true → q a = true) :
    l.countP (fun a => p a && q a) = l.countP p := by
  induction l with
  | nil => simp
  | cons x xs ih =>
    rw [List.countP_cons, List.countP_cons,
      ih (fun a ha hp => h a (List.mem_cons_of_mem _ ha) hp)]
    by_cases hp : p x = true
    · rw [if_pos hp, if_pos (by rw [hp, h x (List.mem_cons_self _ _) hp]; rfl)]
    · rw [if_neg hp, if_neg (by simp [Bool.eq_false_iff.mpr hp])]

theorem count_map_regId (l : List MidaRegistration) (i : Nat) :
    (l.map (fun r => r.regId)).count i = l.countP (fun r => r.regId == i) := by
  induction l with
  | nil => simp
  | cons x xs ih =>
    rw [List.map_cons, List.count_cons, List.countP_cons, ih]

theorem addEventListener_has (e : MidaEmitterState) (hWF : EmitterWF e) (t : String) :
    HasListener (addEventListener e t).1 (addEventListener e t).2 t := by
  constructor
  · simp only [addEventListener, List.countP_append]
    have h0 : e.listeners.countP (fun r => r.regId == e.nextId) = 0 := by
      rw [List.countP_eq_zero]
      intro r hr
      simp only [beq_iff_eq]
      exact Nat.ne_of_lt (hWF r hr)
    rw [h0]
    simp [List.countP_cons]
  · intro r hr hri
    simp only [addEventListener] at hr
    rcases List.mem_append.mp hr with h1 | h1
    · exact absurd hri (Nat.ne_of_lt (hWF r h1))
    · rcases List.mem_singleton.mp h1 with rfl
      exact ⟨rfl, rfl⟩

theorem notify_invoked_count_of_has {e : MidaEmitterState} {i : Nat} {t : String}
    (h : HasListener e i t) (t' : String) :
    ((notifyListeners e t').2).count i = if t' = t then 1 else 0 := by
  rw [notifyListeners, count_map_regId, List.countP_filter]
  by_cases ht : t' = t
  · subst ht
    rw [if_pos rfl, ← h.1]
    apply countP_and_of_imp
    intro r hr hp
    simp only [beq_iff_eq] at hp
    simp [(h.2 r hr hp).1]
  · rw [if_neg ht]
    rw [List.countP_eq_zero]
    intro r hr
    simp only [Bool.and_eq_true, beq_iff_eq, decide_eq_true_eq, not_and]
    intro hp htype
    exact ht (htype.symm.trans (h.2 r hr hp).1)
  
theorem notify_preserves_has {e : MidaEmitterState} {i : Nat} {t : String}
    (h : HasListener e i t) (t' : String) :
    HasListener (notifyListeners e t').1 i t := by
  constructor
  · rw [notifyListeners, List.countP_filter, ← h.1]
    apply countP_and_of_imp
    intro r hr hp
    simp only [beq_iff_eq] at hp
    simp [(h.2 r hr hp).2]
  · intro r hr hri
    exact h.2 r (List.mem_of_mem_filter hr) hri

theorem removeEventListener_no (e : MidaEmitterState) (i : Nat) :
    NoListener (removeEventListener e i) i := by
  rw [NoListener, removeEventListener, List.countP_filter, List.countP_eq_zero]
  intro r hr
  simp

theorem notify_preserves_no {e : MidaEmitterState} {i : Nat} (h : NoListener e i)
    (t' : String) : NoListener (notifyListeners e t').1 i := by
  rw [NoListener, notifyListeners, List.countP_filter]
  have hle := List.countP_mono_left
    (l := e.listeners)
    (p := fun r => (r.regId == i) && decide ¬(r.eventType = t' ∧ r.oneShot = true))
    (q := fun r => r.regId == i)
    (fun x _ hx => by simpa using (Bool.and_elim_left hx))
  rw [NoListener] at h
  omega

theorem notify_invoked_count_of_no {e : MidaEmitterState} {i : Nat} (h : NoListener e i)
    (t' : String) : ((notifyListeners e t').2).count i = 0 := by
  rw [notifyListeners, count_map_regId, List.countP_filter]
  have hle := List.countP_mono_left
    (l := e.listeners)
    (p := fun r => (r.regId == i) && decide (r.eventType = t'))
    (q := fun r => r.regId == i)
    (fun x _ hx => by simpa using (Bool.and_elim_left hx))
  rw [NoListener] at h
  omega

theorem notifyCount_of_has {t : String} {i : Nat} :
    ∀ (k : Nat) (e : MidaEmitterState), HasListener e i t → notifyCount e t i k = k := by
  intro k
  induction k with
  | zero => intro e h; rfl
  | succ n ih =>
    intro e h
    rw [notifyCount, notify_invoked_count_of_has h t, if_pos rfl,
      ih _ (notify_preserves_has h t)]
    omega

theorem notifyCount_of_no {t : String} {i : Nat} :
    ∀ (k : Nat) (e : MidaEmitterState), NoListener e i → notifyCount e t i k = 0 := by
  intro k
  induction k with
  | zero => intro e h; rfl
  | succ n ih =>
    intro e h
    rw [notifyCount, notify_invoked_count_of_no h t, ih _ (notify_preserves_no h t)]

/-! ## Behaviour of the constructor on inputs with excess fractional digits -/

theorem padTakeScale_of_long {F : List Char} (h : SCALE ≤ F.length) :
    padTakeScale F = F.take SCALE := by
  unfold padTakeScale
  rw [show SCALE - F.length = 0 by omega]
  simp

/-- C2 (amended): for every construction input with more than `SCALE`
fractional digits, when the digit right after the 32nd fractional digit is
`>= 5`, the constructor truncates the fraction to 32 digits and adds `1` to
the truncated *signed* scaled value.  For non-negative inputs this increments
the magnitude (round-half-up away from zero); for negative inputs it
*decrements* the magnitude (the rounding moves toward positive infinity),
because the increment is applied after the sign is already folded in. -/
theorem construct_excess_digits (neg : Bool) (I F : List Char)
    (hI : I.all Char.isDigit = true) (hF : F.all Char.isDigit = true)
    (hFlen : SCALE < F.length) :
    construct ((if neg then ['-'] else []) ++ I ++ '.' :: F) =
      some ((if neg then -1 else 1) * (natFromDigits (I ++ F.take SCALE) : Int) +
        (if 5 ≤ digitVal (F.getD SCALE '0') then 1 else 0)) := by
  have hFne : (F.take SCALE).length = SCALE := by
    rw [List.length_take]
    omega
  have htne : F.take SCALE ≠ [] := by
    intro hh
    rw [hh] at hFne
    simp [SCALE] at hFne
  have htdig : (F.take SCALE).all Char.isDigit = true :=
    all_of_sublist (List.take_sublist _ _) hF
  have hIF : (I ++ F.take SCALE).all Char.isDigit = true := by
    rw [List.all_append, hI, htdig]
    rfl
  have hIFne : I ++ F.take SCALE ≠ [] := by
    intro hh
    exact htne (List.append_eq_nil.mp hh).2
  have hall : ((if neg then ['-'] else []) ++ I).all (· ≠ '.') = true := by
    rw [List.all_append, all_ne_dot_of_digits hI]
    cases neg <;> simp
  have hsplit : splitDot ((if neg then ['-'] else []) ++ I ++ '.' :: F) =
      ((if neg then ['-'] else []) ++ I, F) := by
    exact splitDot_mid hall (all_ne_dot_of_digits hF)
  have hg : F.getD SCALE '0' = F[SCALE] := by
    rw [List.getD_eq_getElem?_getD, List.getElem?_eq_getElem hFlen]
    rfl
  have hcd : (F[SCALE]).isDigit = true :=
    List.all_eq_true.mp hF _ (List.getElem_mem hFlen)
  have hinc : roundIncAt F = if 5 ≤ digitVal (F.getD SCALE '0') then 1 else 0 := by
    unfold roundIncAt
    rw [List.getElem?_eq_getElem hFlen, hg]
    simp [roundedPolicy, hcd]
  have hparts : constructParts ((if neg then ['-'] else []) ++ I ++ '.' :: F) =
      (neg, I, F) := by
    simp only [constructParts, hsplit]
    rw [contains_eq_false_of_not_mem (not_mem_dash_of_digits hF)]
    cases neg
    · simp only [if_neg (by decide : ¬(false = true)), List.nil_append]
      rw [contains_eq_false_of_not_mem (not_mem_dash_of_digits hI)]
      simp
    · simp only [if_true, List.singleton_append]
      rw [contains_eq_true_of_mem (List.mem_cons_self '-' I), replaceFirst_cons_self]
      simp
  simp only [construct, hparts]
  rw [if_pos ⟨jsNumberFinite_digits hI, jsNumberFinite_digits hF⟩]
  rw [padTakeScale_of_long (le_of_lt hFlen), hinc]
  cases neg
  · simp only [Bool.false_eq_true, if_false, List.nil_append]
    rw [bigIntOfChars_digits hIF hIFne]
    simp
  · simp only [if_true, List.singleton_append, List.cons_append, List.nil_append]
    rw [show ('-' :: (I ++ List.take SCALE F) : List Char) = '-' :: (I ++ F.take SCALE) from rfl]
    rw [bigIntOfChars_neg hIF hIFne]
    simp

/-! ## Claim theorems -/

/-- C1: the spec requires `min`/`max` to scan every element (over `[5, 1, 3]`
the minimum is `1`), but the loop body reads `operands[0]` at every
iteration, so `MidaDecimal.min(5, 1, 3)` evaluates to `5` (the first
element, not the true minimum `1`) and `MidaDecimal.max(1, 5, 3)` evaluates
to `1`. -/
theorem decMin_decMax_return_first_element :
    decMin [5 * shift, 1 * shift, 3 * shift] = some (5 * shift) ∧
    decMax [1 * shift, 5 * shift, 3 * shift] = some (1 * shift) ∧
    5 * shift ≠ 1 * shift := by
  refine ⟨by decide, by decide, by decide⟩

/-- C2 counterexample: on the negative input
`"-0.000000000000000000000000000000005"` (33 fractional digits, the 33rd
being `5`), round-half-up away from zero would give the scaled value `-1`,
but the constructor returns `+1`: the truncated magnitude is not
incremented — the claim fails for negative inputs. -/
theorem construct_neg_rounding_counterexample :
    construct (String.toList "-0.000000000000000000000000000000005") = some 1 ∧
    (1 : Int) ≠ (-1 : Int) := by
  exact ⟨by decide, by decide⟩

/-- C2 witness: the amended theorem applied at the concrete negative input
with 33 fractional digits. -/
theorem construct_excess_digits_witness :
    construct ((if true then ['-'] else []) ++ ['0'] ++ '.' ::
        (List.replicate SCALE '0' ++ ['5'])) =
      some ((if true then -1 else 1) *
        (natFromDigits (['0'] ++ (List.replicate SCALE '0' ++ ['5']).take SCALE) : Int) +
        (if 5 ≤ digitVal ((List.replicate SCALE '0' ++ ['5']).getD SCALE '0')
          then 1 else 0)) :=
  construct_excess_digits true ['0'] (List.replicate SCALE '0' ++ ['5'])
    (by decide) (by decide) (by decide)

/-- C3: the round-half-up integer division used by `multiply` and `divide`
(truncating quotient plus the correction term `dividend * 2 / divisor % 2`)
rounds a discarded fraction of one half or more away from zero, for all four
sign combinations of dividend and divisor: it agrees with the
spec-modelled rounding `roundHalfAwaySpec` whenever the divisor is
non-zero. -/
theorem divideRound_half_away_correct (d v : Int) (hv : v ≠ 0) :
    divideRound d v = some (roundHalfAwaySpec d v) := by
  rw [divideRound_eq d hv, divideRoundInt_correct d v hv]

/-- C3 witness: `(-3) / 2` rounds to `-2` (away from zero), computed both
ways at a concrete negative dividend. -/
theorem divideRound_half_away_witness :
    (2 : Int) ≠ 0 ∧ divideRound (-3) 2 = some (roundHalfAwaySpec (-3) 2) :=
  ⟨by decide, divideRound_half_away_correct (-3) 2 (by decide)⟩

/-- C4: for every decimal string accepted by the constructor, rendering the
resulting value with `#toString` and parsing it again yields the same
Decimal: the round trip is exact for any value the engine itself can
produce. -/
theorem construct_toString_roundtrip (s : List Char) (v : Int)
    (h : construct s = some v) : construct (midaToString v) = construct s := by
  rw [h]
  exact construct_midaToString v

/-- C4 witness: the round trip at the concrete string `"5.5"`. -/
theorem construct_toString_roundtrip_witness :
    construct (String.toList "5.5") = some (55 * 10 ^ 31) ∧
    construct (midaToString (55 * 10 ^ 31)) = construct (String.toList "5.5") :=
  ⟨by decide, construct_toString_roundtrip _ _ (by decide)⟩

/-- C5: `a.add(b).subtract(b)` equals `a` exactly for all Decimals, and in
particular `decimal("0.1").add(decimal("0.2")).equals(decimal("0.3"))`
holds. -/
theorem add_subtract_exact (a b : Int) :
    ((decAdd a b).bind (fun s => decSub s b) = some a) ∧
    construct (String.toList "0.1") = some (10 ^ 31) ∧
    construct (String.toList "0.2") = some (2 * 10 ^ 31) ∧
    construct (String.toList "0.3") = some (3 * 10 ^ 31) ∧
    (decAdd (10 ^ 31) (2 * 10 ^ 31)).map
      (fun s => decEquals s (3 * 10 ^ 31)) = some true := by
  refine ⟨?_, by decide, by decide, by decide, ?_⟩
  · rw [decAdd_eq, Option.some_bind, decSub_eq, add_sub_cancel_right]
  · rw [decAdd_eq]
    simp [decEquals]

/-- C6: whenever the integer part or the fractional part of the (split and
sign-normalized) input is not a finite number, the constructor fails with an
error (`none`) and never returns a Decimal value. -/
theorem construct_nonfinite_none (s : List Char)
    (h : jsNumberFinite (constructParts s).2.1 = false ∨
         jsNumberFinite (constructParts s).2.2 = false) :
    construct s = none := by
  have hcond : ¬(jsNumberFinite (constructParts s).2.1 = true ∧
      jsNumberFinite (constructParts s).2.2 = true) := by
    rintro ⟨h1, h2⟩
    rcases h with h | h
    · rw [h] at h1
      exact absurd h1 (by decide)
    · rw [h] at h2
      exact absurd h2 (by decide)
  simp only [construct]
  rw [if_neg hcond]

/-- C6 witness: the input `"12a"` has a non-numeric integer part and is
rejected. -/
theorem construct_nonfinite_witness :
    (jsNumberFinite (constructParts (String.toList "12a")).2.1 = false ∨
     jsNumberFinite (constructParts (String.toList "12a")).2.2 = false) ∧
    construct (String.toList "12a") = none :=
  ⟨Or.inl (by decide), construct_nonfinite_none _ (Or.inl (by decide))⟩

/-- C7: dividing by an operand that equals zero fails with an error
(`none`, modelling the `RangeError` thrown by `bigint` division by `0n`)
instead of returning a Decimal. -/
theorem divide_by_zero_errors (a b : Int) (hb : decEquals b 0 = true) :
    decDivide a b = none := by
  have hb0 : b = 0 := by simpa [decEquals] using hb
  subst hb0
  unfold decDivide divideRound
  simp

/-- C7 witness: `decimal(7).divide(0)` errors. -/
theorem divide_by_zero_witness :
    decEquals 0 0 = true ∧ decDivide (7 * shift) 0 = none :=
  ⟨by decide, divide_by_zero_errors (7 * shift) 0 (by decide)⟩

/-- C8: `abs` returns its operand unchanged when it is not below zero and
its exact negation (computed via multiplication by `decimal(-1)`) when it
is; in particular `abs` maps both `decimal("-2.5")` and `decimal("2.5")` to
`decimal("2.5")`. -/
theorem abs_correct (x : Int) :
    decAbs x = some (if x < 0 then -x else x) ∧
    (construct (String.toList "-2.5")).bind decAbs = construct (String.toList "2.5") ∧
    (construct (String.toList "2.5")).bind decAbs = construct (String.toList "2.5") := by
  have habs : ∀ y : Int, decAbs y = some (if y < 0 then -y else y) := by
    intro y
    unfold decAbs decLessThan
    by_cases hy : y < 0
    · simp [hy, decMultiply_negShift]
    · simp [hy]
  refine ⟨habs x, ?_, ?_⟩
  · rw [show construct (String.toList "-2.5") = some (-(25 * 10 ^ 31)) from by decide,
      Option.some_bind, habs]
    decide
  · rw [show construct (String.toList "2.5") = some (25 * 10 ^ 31) from by decide,
      Option.some_bind, habs]
    decide

/-- C9: after registering a listener with `addEventListener`, every
`notifyListeners` call for its type invokes it exactly once (`k` calls give
an invocation count of exactly `k`), and after `removeEventListener` of its
id the count stops incrementing (any further `m` calls add zero). -/
theorem emitter_remove_stops (e : MidaEmitterState) (hWF : EmitterWF e) (t : String)
    (k m : Nat) :
    notifyCount (addEventListener e t).1 t (addEventListener e t).2 k = k ∧
    notifyCount (removeEventListener (notifyIter (addEventListener e t).1 t k)
      (addEventListener e t).2) t (addEventListener e t).2 m = 0 := by
  constructor
  · exact notifyCount_of_has k _ (addEventListener_has e hWF t)
  · exact notifyCount_of_no m _ (removeEventListener_no _ _)

/-- C9 witness: the fresh emitter, three notifications before removal and
two after. -/
theorem emitter_remove_stops_witness :
    EmitterWF ⟨[], 0⟩ ∧
    (notifyCount (addEventListener ⟨[], 0⟩ "event").1 "event"
        (addEventListener ⟨[], 0⟩ "event").2 3 = 3 ∧
     notifyCount (removeEventListener
        (notifyIter (addEventListener ⟨[], 0⟩ "event").1 "event" 3)
        (addEventListener ⟨[], 0⟩ "event").2) "event"
        (addEventListener ⟨[], 0⟩ "event").2 2 = 0) :=
  ⟨by intro r hr; exact absurd hr (List.not_mem_nil r),
   emitter_remove_stops ⟨[], 0⟩ (by intro r hr; exact absurd hr (List.not_mem_nil r))
     "event" 3 2⟩

/-- C10: for all Decimals exactly one of `lessThan`, `equals`,
`greaterThan` holds, and `greaterThanOrEqual`/`lessThanOrEqual` are exactly
the disjunctions of the strict comparison with `equals`. -/
theorem comparison_trichotomy (a b : Int) :
    ((decLessThan a b = true ∧ decEquals a b = false ∧ decGreaterThan a b = false) ∨
     (decLessThan a b = false ∧ decEquals a b = true ∧ decGreaterThan a b = false) ∨
     (decLessThan a b = false ∧ decEquals a b = false ∧ decGreaterThan a b = true)) ∧
    decGreaterThanOrEqual a b = (decGreaterThan a b || decEquals a b) ∧
    decLessThanOrEqual a b = (decLessThan a b || decEquals a b) := by
  refine ⟨?_, rfl, rfl⟩
  simp only [decLessThan, decEquals, decGreaterThan, decide_eq_true_eq,
    decide_eq_false_iff_not, beq_iff_eq, beq_eq_false_iff_ne, not_lt]
  omega
